import Mathlib

/-!
Verification development for the text-editor core: the byte-range
annotation overlay (`AnnotatedString`), the grapheme-aware `Line`
model, and the per-line Rust syntax highlighter.

Strings are modelled as lists of UTF-8 bytes (`List Nat`); byte
indices are `Nat`; Rust's saturating arithmetic on `usize` is ordinary
`Nat` arithmetic (truncated subtraction is saturating subtraction).
-/

/-- Modelled from the spec: the annotation kinds (keyword, type, known-value,
string, comment, character-literal, number, lifetime-specifier, search-match,
selected-match).  The Rust enum `AnnotationType` lives in
src/src/editor/annotationtype.rs, which is declared in editor/mod.rs but is
not among the provided sources. -/
inductive AnnotType where
  | keyword
  | typeName
  | knownValue
  | stringLit
  | comment
  | charLit
  | number
  | lifetime
  | searchMatch
  | selectedMatch
  deriving DecidableEq

/-- src/src/editor/annotation.rs: `Annotation` — a tagged half-open byte
range.  The Rust field `end` is called `stop` here because `end` is a Lean
keyword. -/
structure Annot where
  annotationType : AnnotType
  start : Nat
  stop : Nat
  deriving DecidableEq

/-- src/src/editor/annotation.rs: `Annotation::shift` (saturating adds). -/
def Annot.shift (a : Annot) (offset : Nat) : Annot :=
  { a with start := a.start + offset, stop := a.stop + offset }

/-- src/src/editor/annotatedstring/mod.rs: `AnnotatedString` — an owned text
(as UTF-8 bytes) plus the ordered list of annotations. -/
structure AnnotatedString where
  string : List Nat
  annots : List Annot
  deriving DecidableEq

/-- `AnnotatedString::from`. -/
def AnnotatedString.ofString (s : List Nat) : AnnotatedString :=
  ⟨s, []⟩

/-- `AnnotatedString::add_annotation`: appends (Vec::push). -/
def AnnotatedString.addAnnot (s : AnnotatedString) (t : AnnotType)
    (start stop : Nat) : AnnotatedString :=
  { s with annots := s.annots ++ [⟨t, start, stop⟩] }

/-- The closure `adjust_annotation` inside `AnnotatedString::replace`:
`endC` is the clamped end of the replaced range, `lenDiff` the absolute
length difference, `shortened` whether the text shrank.  Saturating
subtraction/addition on `usize` is `Nat` subtraction/addition. -/
def adjustIdx (startB endC lenDiff : Nat) (shortened : Bool) (idx : Nat) : Nat :=
  if idx ≥ endC then
    (if shortened then idx - lenDiff else idx + lenDiff)
  else if idx > startB then
    (if shortened then max startB (idx - lenDiff) else min endC (idx + lenDiff))
  else idx

/-- src/src/editor/annotatedstring/mod.rs: `AnnotatedString::replace`.
Splices `newString` into `[startB, endB)` of the owned text (the end is
first clamped to the text length; an inverted range is a no-op), then
repairs every stored bound, and finally retains only annotations with
`start < stop && start < new_text_length`.  When the spliced text has the
same length as the replaced range the function returns right after the
splice, leaving the annotations untouched. -/
def AnnotatedString.replace (s : AnnotatedString) (startB endB : Nat)
    (newString : List Nat) : AnnotatedString :=
  let endC := min endB s.string.length
  if startB > endC then s
  else
    let str2 := s.string.take startB ++ newString ++ s.string.drop endC
    let replacedRangeLen := endC - startB
    let lenDiff := max newString.length replacedRangeLen
                 - min newString.length replacedRangeLen
    if lenDiff = 0 then { s with string := str2 }
    else
      let shortened := decide (newString.length < replacedRangeLen)
      let adjusted := s.annots.map fun a =>
        { a with start := adjustIdx startB endC lenDiff shortened a.start,
                 stop := adjustIdx startB endC lenDiff shortened a.stop }
      let kept := adjusted.filter fun a =>
        decide (a.start < a.stop) && decide (a.start < str2.length)
      ⟨str2, kept⟩

/-- `AnnotatedString::truncate_left_until`. -/
def AnnotatedString.truncateLeftUntil (s : AnnotatedString) (untilIdx : Nat) :
    AnnotatedString :=
  s.replace 0 untilIdx []

/-- `AnnotatedString::truncate_right_from`. -/
def AnnotatedString.truncateRightFrom (s : AnnotatedString) (fromIdx : Nat) :
    AnnotatedString :=
  s.replace fromIdx s.string.length []

/-- C1, counterexample.  The claim states that after any
`replace(start,end,new)` every surviving annotation satisfies
`start < end ∧ end ≤ new_text_length`.  Two concrete refutations:
(a) on text "ab" with annotations {1,1} and {0,5}, the call
`replace(0,1,"X")` replaces one byte by one byte, so the repair is skipped
and both annotations survive unchanged — {1,1} violates `start < end` and
{0,5} violates `end ≤ 2`; (b) on text "abc" with annotation {0,5}, the
shrinking call `replace(0,1,"")` runs the repair and the annotation
survives as {0,4} although the new text length is 2, violating
`end ≤ new_text_length`. -/
theorem c1_cex :
    (¬ ∀ a ∈ ((((AnnotatedString.ofString [97, 98]).addAnnot .comment 1 1).addAnnot
        .comment 0 5).replace 0 1 [120]).annots,
        a.start < a.stop ∧
        a.stop ≤ ((((AnnotatedString.ofString [97, 98]).addAnnot .comment 1 1).addAnnot
        .comment 0 5).replace 0 1 [120]).string.length) ∧
    (¬ ∀ a ∈ (((AnnotatedString.ofString [97, 98, 99]).addAnnot
        .comment 0 5).replace 0 1 []).annots,
        a.start < a.stop ∧
        a.stop ≤ (((AnnotatedString.ofString [97, 98, 99]).addAnnot
        .comment 0 5).replace 0 1 []).string.length) := by
  decide

/-- C1, amended: after any `replace(start,end,new)` in which the range
repair actually runs — i.e. `start ≤ min(end, text_length)` and the
replacement's byte length differs from the replaced range's — every
surviving annotation satisfies `start < end` and `start < new_text_length`
(calls that leave the length unchanged, or whose clamped range is inverted,
return early and leave the annotations untouched). -/
theorem c1_amended (s : AnnotatedString) (startB endB : Nat) (new : List Nat)
    (h1 : startB ≤ min endB s.string.length)
    (h2 : new.length ≠ min endB s.string.length - startB) :
    ∀ a ∈ (s.replace startB endB new).annots,
      a.start < a.stop ∧ a.start < (s.replace startB endB new).string.length := by
  intro a ha
  unfold AnnotatedString.replace at ha ⊢
  rw [if_neg (by omega)] at ha ⊢
  rw [if_neg (by omega)] at ha ⊢
  simp only [List.mem_filter, decide_eq_true_eq, Bool.and_eq_true] at ha
  exact ⟨ha.2.1, ha.2.2⟩

/-- C1 witness: the amended theorem applied at text "ab" with one
annotation {0,2}, call `replace(0,1,"")`. -/
theorem c1_amended_witness :
    (0 ≤ min 1 ((AnnotatedString.ofString [97, 98]).addAnnot .comment 0 2).string.length ∧
     ([] : List Nat).length ≠
       min 1 ((AnnotatedString.ofString [97, 98]).addAnnot .comment 0 2).string.length - 0) ∧
    ∀ a ∈ (((AnnotatedString.ofString [97, 98]).addAnnot .comment 0 2).replace 0 1 []).annots,
      a.start < a.stop ∧
      a.start < (((AnnotatedString.ofString [97, 98]).addAnnot .comment 0 2).replace
        0 1 []).string.length :=
  ⟨⟨by decide, by decide⟩,
   c1_amended ((AnnotatedString.ofString [97, 98]).addAnnot .comment 0 2) 0 1 []
     (by decide) (by decide)⟩

/-- C2, counterexample.  The claim states that on the overlay "ab" with
annotation {2,4}, `replace(2,2,"XY")` yields the text "abXY" and exactly
one surviving annotation {4,6}.  In fact no annotation survives: the bounds
are shifted to {4,6} and the retain pass then drops the annotation because
its start (4) is not `<` the new text length (4). -/
theorem c2_cex :
    (((AnnotatedString.ofString [97, 98]).addAnnot .searchMatch 2 4).replace
        2 2 [88, 89]).string = [97, 98, 88, 89] ∧
    (((AnnotatedString.ofString [97, 98]).addAnnot .searchMatch 2 4).replace
        2 2 [88, 89]).annots = [] := by
  decide

/-- C2, amended: on the overlay "ab" with annotation {2,4}, the growing
splice `replace(2,2,"XY")` (delta = 2) produces the text "abXY" and leaves
no surviving annotation: both bounds are first shifted by the delta
(2 ↦ 4, 4 ↦ 6) and the repaired annotation {4,6} is then dropped because
its start equals the new text length 4. -/
theorem c2_amended :
    adjustIdx 2 2 2 false 2 = 4 ∧
    adjustIdx 2 2 2 false 4 = 6 ∧
    (((AnnotatedString.ofString [97, 98]).addAnnot .searchMatch 2 4).replace
        2 2 [88, 89]).string = [97, 98, 88, 89] ∧
    ((((AnnotatedString.ofString [97, 98]).addAnnot .searchMatch 2 4).replace
        2 2 [88, 89]).annots).length = 0 := by
  decide

/-- C10: when the replacement's byte length equals the length of the
replaced range `[start, min(end, text_length))`, `replace` changes only the
owned text: the stored annotations (bounds included, even those beyond the
new text's length) are returned exactly as they were and none is dropped. -/
theorem c10_frame (s : AnnotatedString) (startB endB : Nat) (new : List Nat)
    (h : new.length = min endB s.string.length - startB) :
    (s.replace startB endB new).annots = s.annots := by
  unfold AnnotatedString.replace
  by_cases hgt : startB > min endB s.string.length
  · rw [if_pos hgt]
  · rw [if_neg hgt, if_pos (by omega)]

/-- C10 witness: the frame theorem applied at text "ab" with annotations
{1,1} and {0,9}, call `replace(0,1,"X")` (one byte replaces one byte). -/
theorem c10_frame_witness :
    ([120] : List Nat).length =
      min 1 ((((AnnotatedString.ofString [97, 98]).addAnnot .comment 1 1).addAnnot
        .comment 0 9).string.length) - 0 ∧
    ((((AnnotatedString.ofString [97, 98]).addAnnot .comment 1 1).addAnnot
        .comment 0 9).replace 0 1 [120]).annots =
    (((AnnotatedString.ofString [97, 98]).addAnnot .comment 1 1).addAnnot
        .comment 0 9).annots :=
  ⟨by decide,
   c10_frame (((AnnotatedString.ofString [97, 98]).addAnnot .comment 1 1).addAnnot
     .comment 0 9) 0 1 [120] (by decide)⟩

/-- A run of `AnnotatedStringIterator::next`
(src/src/editor/annotatedstring/annotatedstringiterator.rs): the half-open
byte interval `[start, stop)` the call covered, plus the tag it attached.
The yielded part's string is the byte slice of that interval. -/
structure AnnotRun where
  start : Nat
  stop : Nat
  tag : Option AnnotType
  deriving DecidableEq

/-- The byte slice `string[a..b]`. -/
def sliceBytes (s : List Nat) (a b : Nat) : List Nat :=
  (s.drop a).take (b - a)

/-- First branch of `next`: the first-registered annotation whose half-open
range contains the current index (`annotations.iter().find(...)`). -/
def activeAnnotAt (anns : List Annot) (i : Nat) : Option Annot :=
  anns.find? fun a => decide (a.start ≤ i) && decide (i < a.stop)

/-- Second branch of `next`: the nearest annotation start strictly after the
current index, defaulting to the text length
(`filter(start > idx).map(start).min().unwrap_or(len)`). -/
def nextAnnotBoundary (anns : List Annot) (i len : Nat) : Nat :=
  ((((anns.filter fun a => decide (i < a.start)).map fun a => a.start)).min?).getD len

/-- One call of `AnnotatedStringIterator::next` at index `i`: `none` once the
index has reached the text end, otherwise the emitted run (whose `stop` is
the iterator's updated `current_idx`). -/
def iterStep (s : AnnotatedString) (i : Nat) : Option AnnotRun :=
  if i ≥ s.string.length then none
  else
    match activeAnnotAt s.annots i with
    | some a => some ⟨i, min a.stop s.string.length, some a.annotationType⟩
    | none => some ⟨i, nextAnnotBoundary s.annots i s.string.length, none⟩

/-- Repeated `next` calls from index `i`; the fuel only bounds the number of
steps (each step advances the index by at least one byte). -/
def iterRunsFrom (s : AnnotatedString) : Nat → Nat → List AnnotRun
  | 0, _ => []
  | fuel + 1, i =>
    match iterStep s i with
    | none => []
    | some r => r :: iterRunsFrom s fuel r.stop

/-- All runs of iterating `&AnnotatedString` from `current_idx = 0`;
`string.length` steps always suffice. -/
def AnnotatedString.iterRuns (s : AnnotatedString) : List AnnotRun :=
  iterRunsFrom s s.string.length 0

/-- src/src/editor/annotatedstring/annotatedstringpart.rs:
`AnnotatedStringPart` — a string slice plus optional tag. -/
structure AnnotPart where
  string : List Nat
  annotationType : Option AnnotType
  deriving DecidableEq

/-- The parts the iterator actually yields. -/
def AnnotatedString.iterParts (s : AnnotatedString) : List AnnotPart :=
  s.iterRuns.map fun r => ⟨sliceBytes s.string r.start r.stop, r.tag⟩

theorem lt_nextAnnotBoundary (anns : List Annot) (i len : Nat) (hlen : i < len) :
    i < nextAnnotBoundary anns i len := by
  unfold nextAnnotBoundary
  cases hmin : (((anns.filter fun a => decide (i < a.start)).map fun a => a.start)).min? with
  | none => simpa using hlen
  | some m =>
    have hm := List.min?_mem (fun a b => min_choice a b) hmin
    simp only [List.mem_map, List.mem_filter, decide_eq_true_eq] at hm
    obtain ⟨a, ⟨_, ha⟩, rfl⟩ := hm
    simpa using ha

theorem nextAnnotBoundary_le (anns : List Annot) (i len : Nat)
    (hb : ∀ a ∈ anns, a.start ≤ len) :
    nextAnnotBoundary anns i len ≤ len := by
  unfold nextAnnotBoundary
  cases hmin : (((anns.filter fun a => decide (i < a.start)).map fun a => a.start)).min? with
  | none => simp
  | some m =>
    have hm := List.min?_mem (fun a b => min_choice a b) hmin
    simp only [List.mem_map, List.mem_filter, decide_eq_true_eq] at hm
    obtain ⟨a, ⟨ha, _⟩, rfl⟩ := hm
    simpa using hb a ha

theorem iterStep_spec (s : AnnotatedString) (i : Nat) (r : AnnotRun)
    (h : iterStep s i = some r) : r.start = i ∧ i < r.stop := by
  unfold iterStep at h
  by_cases hi : i ≥ s.string.length
  · rw [if_pos hi] at h; exact absurd h (by simp)
  · rw [if_neg hi] at h
    cases hfind : activeAnnotAt s.annots i with
    | some a =>
      rw [hfind] at h
      injection h with h
      subst h
      refine ⟨rfl, ?_⟩
      have hp := List.find?_some hfind
      simp only [Bool.and_eq_true, decide_eq_true_eq] at hp
      exact lt_min hp.2 (by omega)
    | none =>
      rw [hfind] at h
      injection h with h
      subst h
      exact ⟨rfl, lt_nextAnnotBoundary _ _ _ (by omega)⟩

theorem iterStep_stop_le (s : AnnotatedString) (i : Nat) (r : AnnotRun)
    (hb : ∀ a ∈ s.annots, a.start ≤ s.string.length)
    (h : iterStep s i = some r) : r.stop ≤ s.string.length := by
  unfold iterStep at h
  by_cases hi : i ≥ s.string.length
  · rw [if_pos hi] at h; exact absurd h (by simp)
  · rw [if_neg hi] at h
    cases hfind : activeAnnotAt s.annots i with
    | some a =>
      rw [hfind] at h
      injection h with h
      subst h
      exact min_le_right _ _
    | none =>
      rw [hfind] at h
      injection h with h
      subst h
      exact nextAnnotBoundary_le _ _ _ hb

theorem iterStep_isSome (s : AnnotatedString) (i : Nat) (hi : i < s.string.length) :
    ∃ r, iterStep s i = some r := by
  unfold iterStep
  rw [if_neg (by omega)]
  cases activeAnnotAt s.annots i <;> exact ⟨_, rfl⟩

theorem iterRunsFrom_nil (s : AnnotatedString) (fuel i : Nat)
    (hi : s.string.length ≤ i) : iterRunsFrom s fuel i = [] := by
  cases fuel with
  | zero => rfl
  | succ n =>
    unfold iterRunsFrom iterStep
    rw [if_pos (by omega)]

theorem slice_append_drop (s : List Nat) (i st : Nat) (h : i ≤ st) :
    sliceBytes s i st ++ s.drop st = s.drop i := by
  have hd : s.drop st = (s.drop i).drop (st - i) := by
    rw [List.drop_drop]
    congr 1
    omega
  rw [hd, sliceBytes]
  exact List.take_append_drop _ _

theorem iterRunsFrom_join (s : AnnotatedString) :
    ∀ fuel i, s.string.length - i ≤ fuel →
      (((iterRunsFrom s fuel i).map fun r => sliceBytes s.string r.start r.stop)).flatten
        = s.string.drop i := by
  intro fuel
  induction fuel with
  | zero =>
    intro i h
    rw [iterRunsFrom_nil s 0 i (by omega)]
    simp [List.drop_eq_nil_of_le (by omega : s.string.length ≤ i)]
  | succ n ih =>
    intro i h
    by_cases hi : s.string.length ≤ i
    · rw [iterRunsFrom_nil s _ i hi]
      simp [List.drop_eq_nil_of_le hi]
    · obtain ⟨r, hr⟩ := iterStep_isSome s i (by omega)
      obtain ⟨hstart, hlt⟩ := iterStep_spec s i r hr
      unfold iterRunsFrom
      rw [hr]
      simp only [List.map_cons, List.flatten_cons]
      rw [ih r.stop (by omega), hstart]
      exact slice_append_drop s.string i r.stop (by omega)

theorem iterRunsFrom_chain (s : AnnotatedString)
    (hb : ∀ a ∈ s.annots, a.start ≤ s.string.length) :
    ∀ fuel i, s.string.length - i ≤ fuel → i < s.string.length →
      ((iterRunsFrom s fuel i).head?).map AnnotRun.start = some i ∧
      List.Chain' (fun r r2 => r.stop = r2.start) (iterRunsFrom s fuel i) ∧
      ((iterRunsFrom s fuel i).getLast?).map AnnotRun.stop = some s.string.length ∧
      ∀ r ∈ iterRunsFrom s fuel i, r.start < r.stop ∧ r.stop ≤ s.string.length := by
  intro fuel
  induction fuel with
  | zero => intro i h hi; omega
  | succ n ih =>
    intro i h hi
    obtain ⟨r, hr⟩ := iterStep_isSome s i hi
    obtain ⟨hstart, hlt⟩ := iterStep_spec s i r hr
    have hle := iterStep_stop_le s i r hb hr
    unfold iterRunsFrom
    rw [hr]
    dsimp only
    by_cases hstop : r.stop < s.string.length
    · obtain ⟨ihhead, ihchain, ihlast, ihmem⟩ := ih r.stop (by omega) hstop
      refine ⟨by simp [hstart], ?_, ?_, ?_⟩
      · refine List.chain'_cons'.mpr ⟨?_, ihchain⟩
        intro y hy
        rw [Option.mem_def] at hy
        rw [hy] at ihhead
        simp only [Option.map_some'] at ihhead
        injection ihhead with ihhead
        exact ihhead.symm
      · cases hrest : iterRunsFrom s n r.stop with
        | nil => rw [hrest] at ihlast; exact absurd ihlast (by simp)
        | cons b l =>
          rw [hrest] at ihlast
          rw [List.getLast?_cons_cons]
          exact ihlast
      · intro r2 hr2
        rcases List.mem_cons.mp hr2 with hr2 | hr2
        · subst hr2; exact ⟨by omega, hle⟩
        · exact ihmem r2 hr2
    · have hstopeq : r.stop = s.string.length := by omega
      rw [iterRunsFrom_nil s n r.stop (by omega)]
      refine ⟨by simp [hstart], by simp, by simp [hstopeq], ?_⟩
      intro r2 hr2
      rcases List.mem_cons.mp hr2 with hr2 | hr2
      · subst hr2; exact ⟨by omega, hle⟩
      · exact absurd hr2 (by simp)

theorem iterRunsFrom_tag (s : AnnotatedString) :
    ∀ fuel i, ∀ r ∈ iterRunsFrom s fuel i,
      match activeAnnotAt s.annots r.start with
      | some a => r.tag = some a.annotationType ∧ r.stop = min a.stop s.string.length
      | none => r.tag = none ∧ r.stop = nextAnnotBoundary s.annots r.start s.string.length := by
  intro fuel
  induction fuel with
  | zero => intro i r hr; exact absurd hr (by simp [iterRunsFrom])
  | succ n ih =>
    intro i r hr
    unfold iterRunsFrom at hr
    cases hst : iterStep s i with
    | none => rw [hst] at hr; exact absurd hr (by simp)
    | some r0 =>
      rw [hst] at hr
      rcases List.mem_cons.mp hr with hreq | hrest
      · subst hreq
        unfold iterStep at hst
        by_cases hi : i ≥ s.string.length
        · rw [if_pos hi] at hst; exact absurd hst (by simp)
        · rw [if_neg hi] at hst
          cases hfind : activeAnnotAt s.annots i with
          | some a =>
            rw [hfind] at hst
            injection hst with hst
            subst hst
            simp [hfind]
          | none =>
            rw [hfind] at hst
            injection hst with hst
            subst hst
            simp [hfind]
      · exact ih r0.stop r hrest

/-- C3: iterating an `AnnotatedString` whose annotation bounds lie on
boundaries of its text (modelled: bounds are at most the text length)
yields an ordered, gap-free, non-overlapping sequence of runs whose
concatenated string slices equal the whole text; at each position the run
carries the first-registered (insertion-order) annotation whose half-open
range contains the position and extends to that annotation's end clamped
to the text end, and where no annotation contains the position the run is
untagged and extends to the nearest annotation start after the position,
or the text end. -/
theorem c3_iteration (s : AnnotatedString)
    (hb : ∀ a ∈ s.annots, a.start ≤ s.string.length ∧ a.stop ≤ s.string.length) :
    ((s.iterParts.map AnnotPart.string)).flatten = s.string ∧
    s.iterParts = s.iterRuns.map (fun r => ⟨sliceBytes s.string r.start r.stop, r.tag⟩) ∧
    List.Chain' (fun r r2 => r.stop = r2.start) s.iterRuns ∧
    (∀ r ∈ s.iterRuns, r.start < r.stop ∧ r.stop ≤ s.string.length) ∧
    (s.string ≠ [] →
      ((s.iterRuns.head?).map AnnotRun.start = some 0 ∧
       (s.iterRuns.getLast?).map AnnotRun.stop = some s.string.length)) ∧
    ∀ r ∈ s.iterRuns,
      match activeAnnotAt s.annots r.start with
      | some a => r.tag = some a.annotationType ∧ r.stop = min a.stop s.string.length
      | none => r.tag = none ∧ r.stop = nextAnnotBoundary s.annots r.start s.string.length := by
  have hb1 : ∀ a ∈ s.annots, a.start ≤ s.string.length := fun a ha => (hb a ha).1
  rcases eq_or_ne s.string [] with hs | hs
  · have hr : s.iterRuns = [] := by
      simp [AnnotatedString.iterRuns, hs, iterRunsFrom]
    refine ⟨?_, rfl, ?_, ?_, ?_, ?_⟩
    · simp [AnnotatedString.iterParts, hr, hs]
    · simp [hr]
    · simp [hr]
    · intro hne; exact absurd hs hne
    · simp [hr]
  · have hlen : 0 < s.string.length := List.length_pos.mpr hs
    obtain ⟨hhead, hchain, hlast, hmem⟩ :=
      iterRunsFrom_chain s hb1 s.string.length 0 (by omega) hlen
    refine ⟨?_, rfl, hchain, hmem, fun _ => ⟨hhead, hlast⟩, ?_⟩
    · have hj := iterRunsFrom_join s s.string.length 0 (by omega)
      simpa [AnnotatedString.iterParts, AnnotatedString.iterRuns, List.map_map,
        Function.comp] using hj
    · exact fun r hr => iterRunsFrom_tag s s.string.length 0 r hr

/-- A small concrete overlay used as witness input for C3. -/
def c3Example : AnnotatedString :=
  ((AnnotatedString.ofString [10, 20, 30]).addAnnot .keyword 1 2).addAnnot .comment 0 3

/-- C3 witness: the iteration theorem applied to the overlay of text
`[10, 20, 30]` carrying annotations {1,2} and {0,3}. -/
theorem c3_iteration_witness :
    (∀ a ∈ c3Example.annots,
        a.start ≤ c3Example.string.length ∧ a.stop ≤ c3Example.string.length) ∧
    (((c3Example.iterParts.map AnnotPart.string)).flatten = c3Example.string ∧
     c3Example.iterParts =
       c3Example.iterRuns.map (fun r => ⟨sliceBytes c3Example.string r.start r.stop, r.tag⟩) ∧
     List.Chain' (fun r r2 => r.stop = r2.start) c3Example.iterRuns ∧
     (∀ r ∈ c3Example.iterRuns, r.start < r.stop ∧ r.stop ≤ c3Example.string.length) ∧
     (c3Example.string ≠ [] →
       ((c3Example.iterRuns.head?).map AnnotRun.start = some 0 ∧
        (c3Example.iterRuns.getLast?).map AnnotRun.stop = some c3Example.string.length)) ∧
     ∀ r ∈ c3Example.iterRuns,
       match activeAnnotAt c3Example.annots r.start with
       | some a =>
           r.tag = some a.annotationType ∧ r.stop = min a.stop c3Example.string.length
       | none =>
           r.tag = none ∧
           r.stop = nextAnnotBoundary c3Example.annots r.start c3Example.string.length) :=
  ⟨by decide, c3_iteration c3Example (by decide)⟩

/-- src/src/editor/line/graphemewidth.rs: `GraphemeWidth`. -/
inductive GraphemeWidth where
  | half
  | full
  deriving DecidableEq

/-- src/src/editor/line/textfragment.rs: `TextFragment` — one grapheme
cluster (as UTF-8 bytes), its rendered width, optional replacement glyph,
and starting byte offset. -/
structure TextFragment where
  grapheme : List Nat
  renderedWidth : GraphemeWidth
  replacement : Option Char
  start : Nat
  deriving DecidableEq

/-- src/src/editor/line/mod.rs: `Line` — the line string plus its derived
fragment table. -/
structure Line where
  fragments : List TextFragment
  string : List Nat
  deriving DecidableEq

/-- The per-cluster fragment construction of `Line::str_to_fragments`:
`grapheme_indices` hands each cluster with its starting byte offset (the
offsets are the cumulative byte lengths), and the rendered width plus
replacement glyph are computed from the external `unicode_width` crate and
`get_replacement_character`; that computation is the parameter `wr`. -/
def fragsFrom (wr : List Nat → GraphemeWidth × Option Char) :
    Nat → List (List Nat) → List TextFragment
  | _, [] => []
  | off, g :: gs => ⟨g, (wr g).1, (wr g).2, off⟩ :: fragsFrom wr (off + g.length) gs

/-- `Line::str_to_fragments`; the parameter `seg` is the external
`unicode_segmentation` grapheme-cluster segmentation. -/
def strToFragments (seg : List Nat → List (List Nat))
    (wr : List Nat → GraphemeWidth × Option Char) (s : List Nat) : List TextFragment :=
  fragsFrom wr 0 (seg s)

/-- `Line::from`. -/
def Line.fromStr (seg : List Nat → List (List Nat))
    (wr : List Nat → GraphemeWidth × Option Char) (s : List Nat) : Line :=
  ⟨strToFragments seg wr s, s⟩

/-- `Line::rebuild_fragments`. -/
def Line.rebuild (seg : List Nat → List (List Nat))
    (wr : List Nat → GraphemeWidth × Option Char) (l : Line) : Line :=
  ⟨strToFragments seg wr l.string, l.string⟩

/-- `Line::grapheme_count`. -/
def Line.graphemeCount (l : Line) : Nat :=
  l.fragments.length

/-- `Line::width_until`. -/
def Line.widthUntil (l : Line) (graphemeIdx : Nat) : Nat :=
  (((l.fragments.take graphemeIdx).map fun f =>
    match f.renderedWidth with
    | .half => 1
    | .full => 2)).sum

/-- `Line::width`. -/
def Line.width (l : Line) : Nat :=
  l.widthUntil l.graphemeCount

/-- `Line::insert_char` — `ch` stands for the inserted character's UTF-8
byte sequence (`String::insert` inserts it at the byte offset of fragment
`at_`, or pushes it at the end when there is no such fragment). -/
def Line.insertChar (seg : List Nat → List (List Nat))
    (wr : List Nat → GraphemeWidth × Option Char) (l : Line) (ch : List Nat)
    (at_ : Nat) : Line :=
  match l.fragments[at_]? with
  | some f =>
      Line.rebuild seg wr ⟨l.fragments, l.string.take f.start ++ ch ++ l.string.drop f.start⟩
  | none => Line.rebuild seg wr ⟨l.fragments, l.string ++ ch⟩

/-- `Line::delete`: drains fragment `at_`'s byte span and rebuilds; no-op
when there is no such fragment. -/
def Line.deleteAt (seg : List Nat → List (List Nat))
    (wr : List Nat → GraphemeWidth × Option Char) (l : Line) (at_ : Nat) : Line :=
  match l.fragments[at_]? with
  | some f =>
      Line.rebuild seg wr
        ⟨l.fragments, l.string.take f.start ++ l.string.drop (f.start + f.grapheme.length)⟩
  | none => l

/-- `Line::append`. -/
def Line.appendLine (seg : List Nat → List (List Nat))
    (wr : List Nat → GraphemeWidth × Option Char) (l other : Line) : Line :=
  Line.rebuild seg wr ⟨l.fragments, l.string ++ other.string⟩

/-- `Line::split`: `(truncated self, returned remainder)`; out-of-range
indices leave self untouched and return the default (empty) line. -/
def Line.splitAt (seg : List Nat → List (List Nat))
    (wr : List Nat → GraphemeWidth × Option Char) (l : Line) (at_ : Nat) :
    Line × Line :=
  match l.fragments[at_]? with
  | some f =>
      (Line.rebuild seg wr ⟨l.fragments, l.string.take f.start⟩,
       Line.fromStr seg wr (l.string.drop f.start))
  | none => (l, ⟨[], []⟩)

/-- The fragment-table invariant of the spec: starts are the contiguous
byte offsets beginning at `off` (hence ordered, no gaps, no overlaps). -/
def fragsContigB : List TextFragment → Nat → Bool
  | [], _ => true
  | f :: fs, off => decide (f.start = off) && fragsContigB fs (off + f.grapheme.length)

/-- The full Line invariant: contiguous fragment offsets from 0, the
concatenated cluster texts equal the line string, and no cluster is empty. -/
def lineInvariant (l : Line) : Prop :=
  fragsContigB l.fragments 0 = true ∧
  (((l.fragments.map fun f => f.grapheme)).flatten = l.string) ∧
  ∀ f ∈ l.fragments, f.grapheme ≠ []

theorem fragsFrom_contig (wr : List Nat → GraphemeWidth × Option Char) :
    ∀ gs off, fragsContigB (fragsFrom wr off gs) off = true := by
  intro gs
  induction gs with
  | nil => intro off; rfl
  | cons g gs ih =>
    intro off
    simp [fragsFrom, fragsContigB, ih]

theorem fragsFrom_flatten (wr : List Nat → GraphemeWidth × Option Char) :
    ∀ gs off, (((fragsFrom wr off gs).map fun f => f.grapheme)).flatten = gs.flatten := by
  intro gs
  induction gs with
  | nil => intro off; rfl
  | cons g gs ih =>
    intro off
    simp [fragsFrom, ih]

theorem fragsFrom_ne (wr : List Nat → GraphemeWidth × Option Char) :
    ∀ gs off, (∀ g ∈ gs, g ≠ []) → ∀ f ∈ fragsFrom wr off gs, f.grapheme ≠ [] := by
  intro gs
  induction gs with
  | nil => intro off _ f hf; exact absurd hf (by simp [fragsFrom])
  | cons g gs ih =>
    intro off hne f hf
    rcases List.mem_cons.mp hf with hf | hf
    · subst hf; exact hne g (by simp)
    · exact ih _ (fun g2 hg2 => hne g2 (List.mem_cons_of_mem g hg2)) f hf

theorem fromStr_invariant (seg : List Nat → List (List Nat))
    (wr : List Nat → GraphemeWidth × Option Char)
    (hseg : ∀ t : List Nat, (seg t).flatten = t)
    (hne : ∀ t : List Nat, ∀ g ∈ seg t, g ≠ []) (s : List Nat) :
    lineInvariant (Line.fromStr seg wr s) := by
  refine ⟨fragsFrom_contig wr (seg s) 0, ?_, ?_⟩
  · show (((fragsFrom wr 0 (seg s)).map fun f => f.grapheme)).flatten = s
    rw [fragsFrom_flatten wr (seg s) 0, hseg s]
  · exact fragsFrom_ne wr (seg s) 0 (hne s)

/-- C7: for every Line built by `Line::from` and after every mutating
operation (`insert_char`, `delete`, `append`, `split` — each rebuilds the
table from the new string), the fragments are ordered by byte offset,
contiguous from offset 0 with no gaps or overlaps (each nonempty cluster
starts where the previous one ends), and the concatenation of the fragment
cluster texts equals the line string exactly.  The hypotheses are the two
facts `grapheme_indices` guarantees about the external segmentation: the
clusters concatenate back to the segmented string and no cluster is empty. -/
theorem c7_fragment_invariant (seg : List Nat → List (List Nat))
    (wr : List Nat → GraphemeWidth × Option Char)
    (hseg : ∀ t : List Nat, (seg t).flatten = t)
    (hne : ∀ t : List Nat, ∀ g ∈ seg t, g ≠ []) :
    (∀ s, lineInvariant (Line.fromStr seg wr s)) ∧
    (∀ l ch at_, lineInvariant (Line.insertChar seg wr l ch at_)) ∧
    (∀ l at_, lineInvariant l → lineInvariant (Line.deleteAt seg wr l at_)) ∧
    (∀ l other, lineInvariant (Line.appendLine seg wr l other)) ∧
    (∀ l at_, lineInvariant l →
      lineInvariant (Line.splitAt seg wr l at_).1 ∧
      lineInvariant (Line.splitAt seg wr l at_).2) := by
  have hreb : ∀ l : Line, lineInvariant (Line.rebuild seg wr l) := by
    intro l
    exact fromStr_invariant seg wr hseg hne l.string
  refine ⟨fun s => fromStr_invariant seg wr hseg hne s, ?_, ?_, ?_, ?_⟩
  · intro l ch at_
    unfold Line.insertChar
    cases l.fragments[at_]? <;> exact hreb _
  · intro l at_ hl
    unfold Line.deleteAt
    cases l.fragments[at_]? with
    | some f => exact hreb _
    | none => exact hl
  · intro l other
    exact hreb _
  · intro l at_ hl
    unfold Line.splitAt
    cases l.fragments[at_]? with
    | some f => exact ⟨hreb _, fromStr_invariant seg wr hseg hne _⟩
    | none => exact ⟨hl, ⟨rfl, rfl, by simp⟩⟩

/-- A concrete segmentation for witnesses: every byte is its own cluster
(this is the Unicode segmentation of plain ASCII text). -/
def byteSeg (s : List Nat) : List (List Nat) :=
  s.map fun b => [b]

theorem byteSeg_flatten : ∀ t : List Nat, (byteSeg t).flatten = t := by
  intro t
  induction t with
  | nil => rfl
  | cons b bs ih => simp [byteSeg] at ih ⊢; exact ih

theorem byteSeg_ne : ∀ t : List Nat, ∀ g ∈ byteSeg t, g ≠ [] := by
  intro t g hg
  simp only [byteSeg, List.mem_map] at hg
  obtain ⟨b, _, rfl⟩ := hg
  simp

/-- C7 witness: the invariant theorem applied to the per-byte segmentation
(discharging both segmentation hypotheses), specialised to the line "ab". -/
theorem c7_fragment_invariant_witness :
    (∀ t : List Nat, (byteSeg t).flatten = t) ∧
    (∀ t : List Nat, ∀ g ∈ byteSeg t, g ≠ []) ∧
    lineInvariant (Line.fromStr byteSeg (fun _ => (.half, none)) [97, 98]) :=
  ⟨byteSeg_flatten, byteSeg_ne,
   (c7_fragment_invariant byteSeg (fun _ => (.half, none)) byteSeg_flatten byteSeg_ne).1
     [97, 98]⟩

/-- C9: `width_until` is monotonically non-decreasing in its argument, and
`width_until(grapheme_count())` equals `width()`. -/
theorem c9_width_monotone (l : Line) (n m : Nat) (h : n ≤ m) :
    l.widthUntil n ≤ l.widthUntil m ∧ l.widthUntil l.graphemeCount = l.width := by
  refine ⟨?_, rfl⟩
  unfold Line.widthUntil
  rw [List.map_take, List.map_take]
  have ht : List.take n (l.fragments.map fun f =>
      match f.renderedWidth with
      | GraphemeWidth.half => 1
      | GraphemeWidth.full => 2) =
      List.take n (List.take m (l.fragments.map fun f =>
      match f.renderedWidth with
      | GraphemeWidth.half => 1
      | GraphemeWidth.full => 2)) := by
    rw [List.take_take, min_eq_left h]
  rw [ht]
  have hs := List.sum_take_add_sum_drop
    (List.take m (l.fragments.map fun f =>
      match f.renderedWidth with
      | GraphemeWidth.half => 1
      | GraphemeWidth.full => 2)) n
  omega

/-- C9 witness: monotonicity applied with n = 1 ≤ m = 2 on the line whose
fragments have widths 1 and 2. -/
theorem c9_width_monotone_witness :
    1 ≤ 2 ∧
    ((⟨[⟨[97], .half, none, 0⟩, ⟨[226, 152, 131], .full, none, 1⟩], [97, 226, 152, 131]⟩ :
        Line).widthUntil 1 ≤
      (⟨[⟨[97], .half, none, 0⟩, ⟨[226, 152, 131], .full, none, 1⟩], [97, 226, 152, 131]⟩ :
        Line).widthUntil 2 ∧
     (⟨[⟨[97], .half, none, 0⟩, ⟨[226, 152, 131], .full, none, 1⟩], [97, 226, 152, 131]⟩ :
        Line).widthUntil
       (⟨[⟨[97], .half, none, 0⟩, ⟨[226, 152, 131], .full, none, 1⟩], [97, 226, 152, 131]⟩ :
        Line).graphemeCount =
      (⟨[⟨[97], .half, none, 0⟩, ⟨[226, 152, 131], .full, none, 1⟩], [97, 226, 152, 131]⟩ :
        Line).width) :=
  ⟨by decide,
   c9_width_monotone
     ⟨[⟨[97], .half, none, 0⟩, ⟨[226, 152, 131], .full, none, 1⟩], [97, 226, 152, 131]⟩
     1 2 (by decide)⟩

/-- `Line::byte_idx_to_grapheme_idx`: `position` of the first fragment
whose start is at least the byte index. -/
def Line.byteIdxToGraphemeIdx (l : Line) (byteIdx : Nat) : Option Nat :=
  if byteIdx > l.string.length then none
  else l.fragments.findIdx? fun f => decide (f.start ≥ byteIdx)

/-- `Line::grapheme_idx_to_byte_idx` (the production, non-panicking branch
returns 0 for a missing fragment). -/
def Line.graphemeIdxToByteIdx (l : Line) (graphemeIdx : Nat) : Nat :=
  if graphemeIdx = 0 ∨ l.graphemeCount = 0 then 0
  else
    match l.fragments[graphemeIdx]? with
    | none => 0
    | some f => f.start

/-- `str::match_indices` scan for a non-empty pattern: leftmost,
non-overlapping occurrence byte indices.  The fuel only bounds the number
of scan steps. -/
def matchIndicesAux (q : List Nat) : Nat → Nat → List Nat → List Nat
  | 0, _, _ => []
  | fuel + 1, i, t =>
    if q.isPrefixOf t then
      i :: matchIndicesAux q fuel (i + q.length) (t.drop q.length)
    else
      match t with
      | [] => []
      | _ :: t2 => matchIndicesAux q fuel (i + 1) t2

/-- `str::match_indices`: an empty pattern matches at every byte position
(0 ..= len); otherwise the leftmost non-overlapping scan. -/
def matchIndices (q s : List Nat) : List Nat :=
  if q = [] then List.range (s.length + 1)
  else matchIndicesAux q (s.length + 1) 0 s

/-- Rust slice indexing `fragments.get(a..a+k)`: `some` exactly when the
range lies within bounds. -/
def fragsGet (fs : List TextFragment) (a k : Nat) : Option (List TextFragment) :=
  if a + k ≤ fs.length then some ((fs.drop a).take k) else none

/-- `Line::match_graphme_clusters` — keeps a potential match iff its byte
index maps to a grapheme index and the query's cluster count many fragments
from there concatenate to the query.  The query's grapheme count
(`query.graphemes(true).count()`) comes from the external segmentation
`seg`. -/
def Line.matchGraphmeClusters (seg : List Nat → List (List Nat)) (l : Line)
    (ms : List Nat) (q : List Nat) : List (Nat × Nat) :=
  ms.filterMap fun start =>
    (l.byteIdxToGraphemeIdx start).bind fun graphemeIdx =>
      (fragsGet l.fragments graphemeIdx (seg q).length).bind fun frags =>
        if ((frags.map fun f => f.grapheme)).flatten = q then some (start, graphemeIdx)
        else none

/-- `Line::find_all`: collects the substring matches in the byte range
(end clamped to the string length; an inverted range yields nothing, as
`str::get` does) and keeps those aligning with grapheme clusters. -/
def Line.findAll (seg : List Nat → List (List Nat)) (l : Line) (q : List Nat)
    (rs re : Nat) : List (Nat × Nat) :=
  let e := min re l.string.length
  if rs ≤ e then
    l.matchGraphmeClusters seg
      ((matchIndices q ((l.string.drop rs).take (e - rs))).map fun ri => ri + rs) q
  else []

/-- `Line::search_forward`. -/
def Line.searchForward (seg : List Nat → List (List Nat)) (l : Line)
    (q : List Nat) (fromG : Nat) : Option Nat :=
  if fromG = l.graphemeCount then none
  else
    ((l.findAll seg q (l.graphemeIdxToByteIdx fromG) l.string.length).head?).map
      fun p => p.2

/-- `Line::search_backward`. -/
def Line.searchBackward (seg : List Nat → List (List Nat)) (l : Line)
    (q : List Nat) (fromG : Nat) : Option Nat :=
  if fromG = 0 then none
  else
    ((l.findAll seg q 0
        (if fromG = l.graphemeCount then l.string.length
         else l.graphemeIdxToByteIdx fromG)).getLast?).map
      fun p => p.2

/-- C8: forward search reports no match when starting at the fragment
(grapheme) count, and backward search reports none when starting at 0. -/
theorem c8_search_bounds (seg : List Nat → List (List Nat)) (l : Line)
    (q : List Nat) :
    l.searchForward seg q l.graphemeCount = none ∧
    l.searchBackward seg q 0 = none := by
  constructor
  · unfold Line.searchForward
    rw [if_pos rfl]
  · unfold Line.searchBackward
    rw [if_pos rfl]

theorem mem_of_getLast?_eq (l : List (Nat × Nat)) (p : Nat × Nat)
    (h : l.getLast? = some p) : p ∈ l := by
  induction l with
  | nil => simp at h
  | cons a t ih =>
    cases t with
    | nil =>
      simp only [List.getLast?_singleton, Option.some_inj] at h
      simp [h]
    | cons b t2 =>
      rw [List.getLast?_cons_cons] at h
      exact List.mem_cons_of_mem a (ih h)

/-- C4, amended: every match reported by `find_all` satisfies: its reported
byte index maps through `byte_idx_to_grapheme_idx` to its reported grapheme
index (the index of the first fragment whose start is ≥ the byte index —
the byte index itself may lie strictly inside the preceding fragment), and
the query's grapheme-cluster count many fragments from that index exist and
concatenate exactly to the query; every match returned by `search_forward`
and `search_backward` is the grapheme index of such a `find_all` match. -/
theorem c4_amended (seg : List Nat → List (List Nat)) (l : Line) (q : List Nat) :
    (∀ rs re b g, (b, g) ∈ l.findAll seg q rs re →
      l.byteIdxToGraphemeIdx b = some g ∧
      g + (seg q).length ≤ l.fragments.length ∧
      ((((l.fragments.drop g).take (seg q).length).map fun f => f.grapheme)).flatten = q) ∧
    (∀ fromG g, l.searchForward seg q fromG = some g →
      ∃ b, (b, g) ∈ l.findAll seg q (l.graphemeIdxToByteIdx fromG) l.string.length) ∧
    (∀ fromG g, l.searchBackward seg q fromG = some g →
      ∃ b, (b, g) ∈ l.findAll seg q 0
        (if fromG = l.graphemeCount then l.string.length
         else l.graphemeIdxToByteIdx fromG)) := by
  refine ⟨?_, ?_, ?_⟩
  · intro rs re b g h
    simp only [Line.findAll] at h
    split at h
    · simp only [Line.matchGraphmeClusters] at h
      obtain ⟨start, hmem, hfm⟩ := List.mem_filterMap.mp h
      cases hidx : l.byteIdxToGraphemeIdx start with
      | none => rw [hidx] at hfm; simp at hfm
      | some gi =>
        rw [hidx] at hfm
        simp only [Option.some_bind] at hfm
        cases hget : fragsGet l.fragments gi (seg q).length with
        | none => rw [hget] at hfm; simp at hfm
        | some frags =>
          rw [hget] at hfm
          simp only [Option.some_bind] at hfm
          by_cases heq : ((frags.map fun f => f.grapheme)).flatten = q
          · rw [if_pos heq] at hfm
            injection hfm with hfm
            have hb : start = b := congrArg Prod.fst hfm
            have hg : gi = g := congrArg Prod.snd hfm
            subst hb
            subst hg
            unfold fragsGet at hget
            by_cases hlen : gi + (seg q).length ≤ l.fragments.length
            · rw [if_pos hlen] at hget
              injection hget with hget
              subst hget
              exact ⟨hidx, hlen, heq⟩
            · rw [if_neg hlen] at hget
              exact absurd hget (by simp)
          · rw [if_neg heq] at hfm
            simp at hfm
    · exact absurd h (by simp)
  · intro fromG g h
    unfold Line.searchForward at h
    by_cases hc : fromG = l.graphemeCount
    · rw [if_pos hc] at h
      exact absurd h (by simp)
    · rw [if_neg hc] at h
      rw [Option.map_eq_some'] at h
      obtain ⟨p, hp, rfl⟩ := h
      refine ⟨p.1, ?_⟩
      have hm := List.mem_of_mem_head? (Option.mem_def.mpr hp)
      simpa using hm
  · intro fromG g h
    unfold Line.searchBackward at h
    by_cases hc : fromG = 0
    · rw [if_pos hc] at h
      exact absurd h (by simp)
    · rw [if_neg hc] at h
      rw [Option.map_eq_some'] at h
      obtain ⟨p, hp, rfl⟩ := h
      refine ⟨p.1, ?_⟩
      have hm := mem_of_getLast?_eq _ p hp
      simpa using hm

/-- C4 witness: the amended theorem applied with the per-byte segmentation
to the line "aa" and query "a"; the match (byte 0, grapheme 0) is reported
by `find_all` over the full byte range. -/
theorem c4_amended_witness :
    ((0, 0) ∈ (Line.fromStr byteSeg (fun _ => (.half, none)) [97, 97]).findAll
        byteSeg [97] 0 2) ∧
    ((Line.fromStr byteSeg (fun _ => (.half, none)) [97, 97]).byteIdxToGraphemeIdx 0 =
        some 0 ∧
     0 + (byteSeg [97]).length ≤
        (Line.fromStr byteSeg (fun _ => (.half, none)) [97, 97]).fragments.length ∧
     (((((Line.fromStr byteSeg (fun _ => (.half, none)) [97, 97]).fragments.drop 0).take
        (byteSeg [97]).length).map fun f => f.grapheme)).flatten = [97]) :=
  ⟨by decide,
   (c4_amended byteSeg (Line.fromStr byteSeg (fun _ => (.half, none)) [97, 97]) [97]).1
     0 2 0 0 (by decide)⟩

/-- The regional-indicator symbol letter A (U+1F1E6) as UTF-8 bytes. -/
def riA : List Nat := [240, 159, 135, 166]

/-- The regional-indicator symbol letter B (U+1F1E7) as UTF-8 bytes. -/
def riB : List Nat := [240, 159, 135, 167]

/-- A grapheme segmentation agreeing with Unicode UAX #29 on the two
strings of the C4 counterexample: regional-indicator symbols cluster in
pairs from the left, so "🇧🇦🇦🇦" (B,A,A,A) segments as the two flag
clusters [🇧🇦, 🇦🇦], and the query "🇦🇦" is one flag cluster.  On all
other strings (irrelevant here) it falls back to one cluster per byte. -/
def riSeg (s : List Nat) : List (List Nat) :=
  if s = riB ++ riA ++ riA ++ riA then [riB ++ riA, riA ++ riA]
  else if s = riA ++ riA then [riA ++ riA]
  else s.map fun b => [b]

/-- The line "🇧🇦🇦🇦" as `Line::from` builds it. -/
def c4Line : Line :=
  Line.fromStr riSeg (fun _ => (.half, none)) (riB ++ riA ++ riA ++ riA)

/-- C4, counterexample.  On the line "🇧🇦🇦🇦" (fragments: the flags
"🇧🇦" at byte 0 and "🇦🇦" at byte 8), searching for the query "🇦🇦"
(one grapheme cluster, 8 bytes) reports the match (byte 4, grapheme 1):
`str::match_indices` finds "🇦🇦" at byte 4 — strictly inside the first
flag cluster — and `byte_idx_to_grapheme_idx` maps 4 to fragment 1 (the
first fragment with start ≥ 4), whose cluster equals the query.  The
reported byte index 4 differs from the starting byte offset 8 of the
fragment at the reported grapheme index, so the match does not begin at a
fragment boundary. -/
theorem c4_cex :
    c4Line.findAll riSeg (riA ++ riA) 0 16 = [(4, 1)] ∧
    (c4Line.fragments.map fun f => f.start) = [0, 8] ∧
    ¬ (4 : Nat) = 8 := by
  decide

/-- The UTF-8 byte length of a character (Rust `char::len_utf8`). -/
def utf8Len (c : Char) : Nat :=
  if c.toNat < 0x80 then 1
  else if c.toNat < 0x800 then 2
  else if c.toNat < 0x10000 then 3
  else 4

/-- `str::char_indices` starting at byte offset `i`. -/
def charIndicesFrom : Nat → List Char → List (Nat × Char)
  | _, [] => []
  | i, c :: cs => (i, c) :: charIndicesFrom (i + utf8Len c) cs

/-- `str::char_indices`. -/
def charIndices (s : List Char) : List (Nat × Char) :=
  charIndicesFrom 0 s

/-- `str::len` — the byte length of a character list. -/
def byteLen (s : List Char) : Nat :=
  (s.map utf8Len).sum

/-- src/src/editor/uicomponents/view/highlighter/rustsyntaxhighlighter.rs:
`RustSyntaxHighlighter::annotate_ml_comment` in state-passing form over the
`char_indices` stream (the `peekable` iterator is modelled by matching two
stream elements at a time): takes the current `ml_comment_balance`, returns
the final balance and the returned annotation; `strLen` is the scanned
string's byte length. -/
def annotateMlCommentAux (strLen : Nat) : Nat → List (Nat × Char) → Nat × Option Annot
  | bal, [] =>
    (bal, if bal > 0 then some ⟨.comment, 0, strLen⟩ else none)
  | bal, [(_, c)] =>
    if c = '/' then annotateMlCommentAux strLen bal []
    else if bal = 0 then (bal, none)
    else annotateMlCommentAux strLen bal []
  | bal, (_, c) :: (j, c2) :: rest2 =>
    if c = '/' then
      (if c2 = '*' then annotateMlCommentAux strLen (bal + 1) rest2
       else annotateMlCommentAux strLen bal ((j, c2) :: rest2))
    else if bal = 0 then (bal, none)
    else if c = '*' then
      (if c2 = '/' then
        (if bal - 1 = 0 then (bal - 1, some ⟨.comment, 0, j + 1⟩)
         else annotateMlCommentAux strLen (bal - 1) rest2)
       else annotateMlCommentAux strLen bal ((j, c2) :: rest2))
    else annotateMlCommentAux strLen bal ((j, c2) :: rest2)

/-- `RustSyntaxHighlighter::annotate_string` in state-passing form: takes
the current `in_ml_string` flag, returns the updated flag and the returned
annotation. -/
def annotateStringAux (strLen : Nat) : Bool → List (Nat × Char) → Bool × Option Annot
  | inS, [] => (inS, if inS then some ⟨.stringLit, 0, strLen⟩ else none)
  | inS, (i, c) :: rest =>
    if c = '\\' ∧ inS = true then
      match rest with
      | [] => (inS, if inS then some ⟨.stringLit, 0, strLen⟩ else none)
      | _ :: rest2 => annotateStringAux strLen inS rest2
    else if c = '"' then
      (if inS then (false, some ⟨.stringLit, 0, i + 1⟩)
       else annotateStringAux strLen true rest)
    else if inS = false then (inS, none)
    else annotateStringAux strLen inS rest

/-- The highlighter's carried lexical state: `ml_comment_balance` and
`in_ml_string`. -/
structure RustHLState where
  mlCommentBalance : Nat
  inMlString : Bool
  deriving DecidableEq

/-- `annotate_ml_comment` as a state transition on the highlighter. -/
def annotateMlComment (st : RustHLState) (line : List Char) : RustHLState × Option Annot :=
  let r := annotateMlCommentAux (byteLen line) st.mlCommentBalance (charIndices line)
  ({ st with mlCommentBalance := r.1 }, r.2)

/-- `annotate_string` as a state transition on the highlighter. -/
def annotateStringHL (st : RustHLState) (line : List Char) : RustHLState × Option Annot :=
  let r := annotateStringAux (byteLen line) st.inMlString (charIndices line)
  ({ st with inMlString := r.1 }, r.2)

/-- `RustSyntaxHighlighter::initial_annotation`. -/
def initialAnnot (st : RustHLState) (line : List Char) : RustHLState × Option Annot :=
  if st.inMlString then annotateStringHL st line
  else if st.mlCommentBalance > 0 then annotateMlComment st line
  else (st, none)

/-- Reference scan for the spec's "first `*/` that returns the depth to 0":
from depth `d`, consume `/*` and `*/` tokens left to right, adjusting the
depth; `some e` gives the byte offset just past the closing `/` where the
depth first reaches 0, `none` means the depth stays positive to the end. -/
def firstCloseEnd : Nat → List (Nat × Char) → Option Nat
  | _, [] => none
  | _, [_] => none
  | d, (_, c) :: (j, c2) :: rest2 =>
    if c = '/' then
      (if c2 = '*' then firstCloseEnd (d + 1) rest2
       else firstCloseEnd d ((j, c2) :: rest2))
    else if c = '*' then
      (if c2 = '/' then
        (if d = 1 then some (j + 1) else firstCloseEnd (d - 1) rest2)
       else firstCloseEnd d ((j, c2) :: rest2))
    else firstCloseEnd d ((j, c2) :: rest2)

theorem annotateMlCommentAux_spec (strLen : Nat) :
    ∀ n cs d, List.length cs ≤ n → 1 ≤ d →
      (match firstCloseEnd d cs with
       | some e => annotateMlCommentAux strLen d cs = (0, some ⟨.comment, 0, e⟩)
       | none => ∃ d2, 1 ≤ d2 ∧
           annotateMlCommentAux strLen d cs = (d2, some ⟨.comment, 0, strLen⟩)) := by
  intro n
  induction n with
  | zero =>
    intro cs d hl hd
    have hcs : cs = [] := List.eq_nil_of_length_eq_zero (by omega)
    subst hcs
    exact ⟨d, hd, by simp only [annotateMlCommentAux]; rw [if_pos (by omega)]⟩
  | succ n ih =>
    intro cs d hl hd
    match cs with
    | [] =>
      exact ⟨d, hd, by simp only [annotateMlCommentAux]; rw [if_pos (by omega)]⟩
    | [(i, c)] =>
      refine ⟨d, hd, ?_⟩
      simp only [annotateMlCommentAux]
      have h0 : ¬ d = 0 := by omega
      have h1 : 0 < d := by omega
      simp [h0, h1]
    | (i, c) :: (j, c2) :: rest2 =>
      simp only [List.length_cons] at hl
      rw [firstCloseEnd.eq_3, annotateMlCommentAux.eq_3]
      by_cases hc : c = '/'
      · rw [if_pos hc, if_pos hc]
        by_cases hc2 : c2 = '*'
        · rw [if_pos hc2, if_pos hc2]
          exact ih rest2 (d + 1) (by omega) (by omega)
        · rw [if_neg hc2, if_neg hc2]
          exact ih ((j, c2) :: rest2) d (by simp; omega) hd
      · rw [if_neg hc, if_neg hc, if_neg (by omega : ¬ d = 0)]
        by_cases hs : c = '*'
        · rw [if_pos hs, if_pos hs]
          by_cases hc2 : c2 = '/'
          · rw [if_pos hc2, if_pos hc2]
            by_cases hd1 : d = 1
            · rw [if_pos hd1, if_pos (by omega : d - 1 = 0)]
              subst hd1
              rfl
            · rw [if_neg hd1, if_neg (by omega : ¬ d - 1 = 0)]
              exact ih rest2 (d - 1) (by omega) (by omega)
          · rw [if_neg hc2, if_neg hc2]
            exact ih ((j, c2) :: rest2) d (by simp; omega) hd
        · rw [if_neg hs, if_neg hs]
          exact ih ((j, c2) :: rest2) d (by simp; omega) hd

/-- C5, counterexample.  The line "/*/\x2a" opens a block comment `/*` that
is not closed by the line's end, yet the carried state after the scan that
enters the comment (from `Normal`, balance 0) is depth 2 — both `/*` tokens
are counted — not depth 1 as the claim states. -/
theorem c5_cex :
    (annotateMlComment ⟨0, false⟩ ['/', '*', '/', '*']).1.mlCommentBalance = 2 ∧
    (annotateMlComment ⟨0, false⟩ ['/', '*', '/', '*']).2 =
      some ⟨.comment, 0, 4⟩ ∧
    ¬ (2 : Nat) = 1 := by
  decide

/-- C5, amended: if a scanned line opens a block comment `/*` that is not
closed by the line's end (scanned from the opening token at depth 1, the
depth never returns to 0), the carried state after the scan entering the
comment from balance 0 is in-block-comment with depth ≥ 1 — the number of
unmatched opens, not necessarily 1 — and the emitted comment annotation
covers the scanned text to its end; on the next scanned line, from any
carried depth b ≥ 1 (and not inside a string), `initial_annotation` emits a
comment annotation starting at byte 0 and ending just past the first `*/`
that returns the depth to 0, or at the line end if the depth stays
positive. -/
theorem c5_amended (rest next : List Char) (b : Nat)
    (hopen : firstCloseEnd 1 (charIndicesFrom 2 rest) = none) (hb : 1 ≤ b) :
    (∃ d2, 1 ≤ d2 ∧
      annotateMlCommentAux (byteLen ('/' :: '*' :: rest)) 0
        (charIndices ('/' :: '*' :: rest)) =
        (d2, some ⟨.comment, 0, byteLen ('/' :: '*' :: rest)⟩)) ∧
    (initialAnnot ⟨b, false⟩ next).2 =
      some ⟨.comment, 0,
        (firstCloseEnd b (charIndices next)).getD (byteLen next)⟩ := by
  constructor
  · have hstep :
        annotateMlCommentAux (byteLen ('/' :: '*' :: rest)) 0
          (charIndices ('/' :: '*' :: rest)) =
        annotateMlCommentAux (byteLen ('/' :: '*' :: rest)) 1 (charIndicesFrom 2 rest) := by
      cases rest with
      | nil => rfl
      | cons c3 cs3 => rfl
    rw [hstep]
    have hmain := annotateMlCommentAux_spec (byteLen ('/' :: '*' :: rest))
      (charIndicesFrom 2 rest).length (charIndicesFrom 2 rest) 1 le_rfl le_rfl
    rw [hopen] at hmain
    exact hmain
  · have h1 : initialAnnot ⟨b, false⟩ next = annotateMlComment ⟨b, false⟩ next := by
      unfold initialAnnot
      rw [if_neg (by simp),
        if_pos (show ({ mlCommentBalance := b, inMlString := false } :
          RustHLState).mlCommentBalance > 0 from hb)]
    rw [h1]
    have hmain := annotateMlCommentAux_spec (byteLen next) (charIndices next).length
      (charIndices next) b le_rfl hb
    show (annotateMlCommentAux (byteLen next) b (charIndices next)).2 = _
    cases hfc : firstCloseEnd b (charIndices next) with
    | some e =>
      rw [hfc] at hmain
      have hm2 : annotateMlCommentAux (byteLen next) b (charIndices next) =
          (0, some ⟨.comment, 0, e⟩) := hmain
      rw [hm2]
      rfl
    | none =>
      rw [hfc] at hmain
      have hm2 : ∃ d2, 1 ≤ d2 ∧
          annotateMlCommentAux (byteLen next) b (charIndices next) =
          (d2, some ⟨.comment, 0, byteLen next⟩) := hmain
      obtain ⟨d2, _, he⟩ := hm2
      rw [he]
      rfl

/-- C5 witness: the amended theorem applied to the opening line "/*a"
(one unclosed open) and the next line "a*/b", carried depth 1; the
emitted annotation on the next line is {0, 3}, ending just past the
`*/`. -/
theorem c5_amended_witness :
    (firstCloseEnd 1 (charIndicesFrom 2 ['a']) = none ∧ 1 ≤ 1) ∧
    ((∃ d2, 1 ≤ d2 ∧
      annotateMlCommentAux (byteLen ('/' :: '*' :: ['a'])) 0
        (charIndices ('/' :: '*' :: ['a'])) =
        (d2, some ⟨.comment, 0, byteLen ('/' :: '*' :: ['a'])⟩)) ∧
     (initialAnnot ⟨1, false⟩ ['a', '*', '/', 'b']).2 =
       some ⟨.comment, 0,
         (firstCloseEnd 1 (charIndices ['a', '*', '/', 'b'])).getD
           (byteLen ['a', '*', '/', 'b'])⟩) :=
  ⟨⟨by decide, by decide⟩,
   c5_amended ['a'] ['a', '*', '/', 'b'] 1 (by decide) (by decide)⟩

/-- Rust `char::is_digit(radix)` (via `to_digit`): the character is a digit
valid in the given base. -/
def isDigitBase (base : Nat) (c : Char) : Bool :=
  if c.isDigit then decide (c.toNat - '0'.toNat < base)
  else if 'a' ≤ c ∧ c ≤ 'z' then decide (c.toNat - 'a'.toNat + 10 < base)
  else if 'A' ≤ c ∧ c ≤ 'Z' then decide (c.toNat - 'A'.toNat + 10 < base)
  else false

/-- The base-prefix dispatch inside `is_numeric_literal`: `b`/`B` → 2,
`o`/`O` → 8, `x`/`X` → 16. -/
def baseOf (c : Char) : Option Nat :=
  if c = 'b' ∨ c = 'B' then some 2
  else if c = 'o' ∨ c = 'O' then some 8
  else if c = 'x' ∨ c = 'X' then some 16
  else none

/-- src/src/editor/uicomponents/view/highlighter/rustsyntaxhighlighter.rs:
`is_numeric_literal` — a leading `0`, a base prefix, and (because of the
`len >= 3` check) at least one digit, all digits valid in the base. -/
def isNumericLiteral (w : List Char) : Bool :=
  if w.length < 3 then false
  else
    match w with
    | c0 :: c1 :: rest =>
      if c0 = '0' then
        match baseOf c1 with
        | some b => rest.all fun c => isDigitBase b c
        | none => false
      else false
    | _ => false

/-- The character loop of `is_valid_number` over the characters after the
leading digit, carrying `seen_dot`, `seen_e`, `prev_was_digit`. -/
def validRest : Bool → Bool → Bool → List Char → Bool
  | _, _, pd, [] => pd
  | sd, se, pd, c :: rest =>
    if c.isDigit then validRest sd se true rest
    else if c = '_' then
      (if pd = false then false else validRest sd se false rest)
    else if c = '.' then
      (if sd = true ∨ se = true ∨ pd = false then false
       else validRest true se false rest)
    else if c = 'e' ∨ c = 'E' then
      (if se = true ∨ pd = false then false else validRest sd true false rest)
    else false

/-- `is_valid_number`: empty words are rejected, base-prefixed literals are
accepted, otherwise the word must start with an ASCII digit and the
remaining characters must pass the flag loop (ending on a digit). -/
def isValidNumber (w : List Char) : Bool :=
  if w = [] then false
  else if isNumericLiteral w then true
  else
    match w with
    | [] => false
    | c :: rest => if c.isDigit then validRest false false true rest else false

/-- Characters admitted by the spec's decimal grammar. -/
def allowedNumChar (c : Char) : Bool :=
  c.isDigit || c = '_' || c = '.' || c = 'e' || c = 'E'

/-- Exponent markers. -/
def isExpChar (c : Char) : Bool :=
  c = 'e' || c = 'E'

/-- Every underscore, dot and exponent marker stands directly after a
digit: each character is paired with whether its predecessor is a digit
(`pd0` for the first character). -/
def prevDigitOk (pd0 : Bool) (w : List Char) : Bool :=
  (w.zip (pd0 :: w.map Char.isDigit)).all fun p => p.1.isDigit || p.2

/-- The word ends on a digit (`pd0` answers for the empty word). -/
def lastIsDigit (pd0 : Bool) (w : List Char) : Bool :=
  match w.getLast? with
  | some c => c.isDigit
  | none => pd0

/-- The claim's decimal-literal grammar, stated positionally over the whole
word: starts with a digit; contains only digits, `_`, `.`, `e`, `E`; at
most one dot; at most one exponent marker; no dot after the first exponent
marker; every special character directly after a digit; ends on a digit. -/
def specDecimal (w : List Char) : Bool :=
  match w with
  | [] => false
  | c :: _ =>
    c.isDigit && w.all allowedNumChar &&
    decide (w.count '.' ≤ 1) &&
    decide ((w.filter isExpChar).length ≤ 1) &&
    decide (((w.dropWhile fun x => ! isExpChar x).count '.') = 0) &&
    prevDigitOk true w &&
    lastIsDigit true w

/-- The claim's base-prefixed branch exactly as the spec words it: `0`
followed by a base prefix `b`/`o`/`x` (lowercase) and one or more digits
valid in that base. -/
def specBasePrefixed (w : List Char) : Bool :=
  match w with
  | c0 :: c1 :: rest =>
    decide (c0 = '0') && decide (rest ≠ []) &&
    (if c1 = 'b' then rest.all fun c => isDigitBase 2 c
     else if c1 = 'o' then rest.all fun c => isDigitBase 8 c
     else if c1 = 'x' then rest.all fun c => isDigitBase 16 c
     else false)
  | _ => false

/-- The numeric grammar exactly as the claim states it. -/
def specNumberGrammar (w : List Char) : Bool :=
  specBasePrefixed w || specDecimal w

/-- The amended base-prefixed branch: the prefix letter may be either
case (`b`/`B`, `o`/`O`, `x`/`X`). -/
def specBasePrefixedAmended (w : List Char) : Bool :=
  match w with
  | c0 :: c1 :: rest =>
    decide (c0 = '0') && decide (rest ≠ []) &&
    (if c1 = 'b' ∨ c1 = 'B' then rest.all fun c => isDigitBase 2 c
     else if c1 = 'o' ∨ c1 = 'O' then rest.all fun c => isDigitBase 8 c
     else if c1 = 'x' ∨ c1 = 'X' then rest.all fun c => isDigitBase 16 c
     else false)
  | _ => false

/-- The amended numeric grammar. -/
def specNumberGrammarAmended (w : List Char) : Bool :=
  specBasePrefixedAmended w || specDecimal w

/-- C6, counterexample.  The word "0B1" (uppercase base prefix) is
classified as a numeric literal by the code, but the claim's grammar —
whose base prefixes are `b`/`o`/`x` and whose decimal branch forbids the
letter `B` — rejects it. -/
theorem c6_cex :
    isValidNumber ['0', 'B', '1'] = true ∧
    specNumberGrammar ['0', 'B', '1'] = false := by
  decide

theorem prevDigitOk_cons (pd0 : Bool) (c : Char) (rest : List Char) :
    prevDigitOk pd0 (c :: rest) =
      ((c.isDigit || pd0) && prevDigitOk c.isDigit rest) := rfl

theorem lastIsDigit_cons (pd0 : Bool) (c : Char) (rest : List Char) :
    lastIsDigit pd0 (c :: rest) = lastIsDigit c.isDigit rest := by
  cases rest with
  | nil => simp [lastIsDigit]
  | cons b t =>
    cases hgl : (b :: t).getLast? with
    | none => simp at hgl
    | some x => simp [lastIsDigit, List.getLast?_cons_cons, hgl]

/-- The positional reading of the decimal grammar, relative to the loop
state (`sd` = dot seen, `se` = exponent marker seen, `pd` = previous
character was a digit). -/
def RestOkP (sd se pd : Bool) (w : List Char) : Prop :=
  (∀ c ∈ w, allowedNumChar c = true) ∧
  w.count '.' ≤ (if sd || se then 0 else 1) ∧
  (w.filter isExpChar).length ≤ (if se then 0 else 1) ∧
  ((w.dropWhile fun x => ! isExpChar x).count '.') = 0 ∧
  prevDigitOk pd w = true ∧
  lastIsDigit pd w = true

theorem validRest_iff :
    ∀ (w : List Char) (sd se pd : Bool),
      validRest sd se pd w = true ↔ RestOkP sd se pd w := by
  intro w
  induction w with
  | nil =>
    intro sd se pd
    simp [validRest, RestOkP, prevDigitOk, lastIsDigit]
  | cons c rest ih =>
    intro sd se pd
    by_cases hdg : c.isDigit = true
    · have hdot : ¬ c = '.' := by intro h; rw [h] at hdg; exact absurd hdg (by decide)
      have hus : ¬ c = '_' := by intro h; rw [h] at hdg; exact absurd hdg (by decide)
      have he2 : ¬ c = 'e' := by intro h; rw [h] at hdg; exact absurd hdg (by decide)
      have hE2 : ¬ c = 'E' := by intro h; rw [h] at hdg; exact absurd hdg (by decide)
      have hexp : isExpChar c = false := by simp [isExpChar, he2, hE2]
      rw [show validRest sd se pd (c :: rest) = validRest sd se true rest by
        simp [validRest, hdg]]
      rw [ih sd se true]
      unfold RestOkP
      rw [prevDigitOk_cons, lastIsDigit_cons, hdg]
      simp [List.count_cons, List.filter_cons, List.dropWhile_cons, hdot, hexp,
        allowedNumChar, hdg]
    · by_cases hus : c = '_'
      · subst hus
        rw [show validRest sd se pd ('_' :: rest) =
            (if pd = false then false else validRest sd se false rest) by
          simp [validRest]]
        cases pd with
        | false =>
          simp only [if_pos rfl]
          unfold RestOkP
          rw [prevDigitOk_cons]
          simp
        | true =>
          rw [if_neg (show ¬ ((true : Bool) = false) by simp)]
          rw [ih sd se false]
          unfold RestOkP
          rw [prevDigitOk_cons, lastIsDigit_cons]
          simp [List.count_cons, List.filter_cons, List.dropWhile_cons,
            allowedNumChar, isExpChar]
      · by_cases hdot : c = '.'
        · subst hdot
          rw [show validRest sd se pd ('.' :: rest) =
              (if sd = true ∨ se = true ∨ pd = false then false
               else validRest true se false rest) by
            simp [validRest]]
          by_cases hcond : sd = true ∨ se = true ∨ pd = false
          · rw [if_pos hcond]
            unfold RestOkP
            rw [prevDigitOk_cons]
            rcases hcond with h | h | h
            · subst h
              simp [List.count_cons]
            · subst h
              simp [List.count_cons]
            · subst h
              simp
          · rw [if_neg hcond]
            simp only [not_or, Bool.not_eq_true, Bool.not_eq_false] at hcond
            obtain ⟨hsd, hse, hpd⟩ := hcond
            subst hsd
            subst hse
            subst hpd
            rw [ih true false false]
            unfold RestOkP
            rw [prevDigitOk_cons, lastIsDigit_cons]
            have harith : ∀ k : Nat, (k + 1 ≤ 1) ↔ (k ≤ 0) := by omega
            simp [List.count_cons, List.filter_cons, List.dropWhile_cons,
              allowedNumChar, isExpChar, harith]
        · by_cases hce : c = 'e' ∨ c = 'E'
          · have hexp : isExpChar c = true := by
              simp [isExpChar]
              rcases hce with h | h
              · exact Or.inl h
              · exact Or.inr h
            have hdg2 : c.isDigit = false := by
              rcases hce with h | h <;> rw [h] <;> decide
            rw [show validRest sd se pd (c :: rest) =
                (if se = true ∨ pd = false then false
                 else validRest sd true false rest) by
              simp [validRest, hdg2, hus, hdot, hce]]
            by_cases hcond : se = true ∨ pd = false
            · rw [if_pos hcond]
              unfold RestOkP
              rw [prevDigitOk_cons, hdg2]
              rcases hcond with h | h
              · subst h
                simp [List.filter_cons, hexp]
              · subst h
                simp
            · rw [if_neg hcond]
              simp only [not_or, Bool.not_eq_true, Bool.not_eq_false] at hcond
              obtain ⟨hse, hpd⟩ := hcond
              subst hse
              subst hpd
              rw [ih sd true false]
              unfold RestOkP
              rw [prevDigitOk_cons, lastIsDigit_cons, hdg2]
              have hsub : ((rest.dropWhile fun x => ! isExpChar x).count '.') ≤
                  rest.count '.' :=
                List.Sublist.count_le (List.dropWhile_sublist _) '.'
              have hdot2 : ¬ c = '.' := hdot
              have hdot3 : ¬ '.' = c := fun h => hdot (h.symm)
              have hallow : allowedNumChar c = true := by
                rcases hce with h | h <;> rw [h] <;> decide
              have hcc : List.count '.' (c :: rest) = List.count '.' rest := by
                simp [List.count_cons, hdot3]
              cases sd with
              | false =>
                simp only [List.forall_mem_cons, hallow, true_and,
                  List.count_cons, List.filter_cons, hexp, List.length_cons,
                  List.dropWhile_cons, Bool.not_true, Bool.false_or,
                  Bool.true_and, beq_iff_eq, hdot2, hdot3, Bool.or_true,
                  Bool.or_false, Bool.false_eq_true, Bool.true_eq_false]
                simp
                intro h1
                rw [hcc]
                constructor
                · rintro ⟨h2, h3, h4, h5, h6⟩
                  exact ⟨by omega, h3, by omega, h5, h6⟩
                · rintro ⟨h2, h3, h4, h5, h6⟩
                  exact ⟨by omega, h3, by omega, h5, h6⟩
              | true =>
                simp only [List.forall_mem_cons, hallow, true_and,
                  List.count_cons, List.filter_cons, hexp, List.length_cons,
                  List.dropWhile_cons, Bool.not_true, Bool.false_or,
                  Bool.true_and, beq_iff_eq, hdot2, hdot3, Bool.or_true,
                  Bool.or_false, Bool.false_eq_true, Bool.true_eq_false]
                simp
                intro h1 h2 h3 h4 h5
                rw [hcc]
                omega
          · have hallow : allowedNumChar c = false := by
              simp [allowedNumChar, hdg, hus, hdot]
              constructor
              · intro h; exact hce (Or.inl h)
              · intro h; exact hce (Or.inr h)
            rw [show validRest sd se pd (c :: rest) = false by
              simp [validRest, hdg, hus, hdot, hce]]
            unfold RestOkP
            simp [hallow]

theorem specDecimal_iff (c : Char) (rest : List Char) :
    specDecimal (c :: rest) = true ↔
      (c.isDigit = true ∧ RestOkP false false true rest) := by
  by_cases hdg : c.isDigit = true
  · have hdot : ¬ c = '.' := by intro h; rw [h] at hdg; exact absurd hdg (by decide)
    have hdot3 : ¬ '.' = c := fun h => hdot h.symm
    have he2 : ¬ c = 'e' := by intro h; rw [h] at hdg; exact absurd hdg (by decide)
    have hE2 : ¬ c = 'E' := by intro h; rw [h] at hdg; exact absurd hdg (by decide)
    have hexp : isExpChar c = false := by simp [isExpChar, he2, hE2]
    simp only [specDecimal, RestOkP, Bool.and_eq_true, decide_eq_true_eq]
    rw [prevDigitOk_cons, lastIsDigit_cons, hdg]
    simp [List.count_cons, List.filter_cons, List.dropWhile_cons, hdot3, hexp,
      allowedNumChar, hdg, and_assoc]
  · simp only [specDecimal, Bool.and_eq_true]
    constructor
    · rintro ⟨⟨⟨⟨⟨⟨h, _⟩, _⟩, _⟩, _⟩, _⟩, _⟩
      exact absurd h hdg
    · rintro ⟨h, _⟩
      exact absurd h hdg

theorem isNumericLiteral_eq_amended (w : List Char) :
    isNumericLiteral w = specBasePrefixedAmended w := by
  match w with
  | [] => rfl
  | [c] => rfl
  | c0 :: c1 :: rest =>
    simp only [isNumericLiteral, specBasePrefixedAmended]
    by_cases hr : rest = []
    · subst hr
      rw [if_pos (by simp)]
      simp
    · have hlen : ¬ (c0 :: c1 :: rest).length < 3 := by
        have := List.length_pos.mpr hr
        simp only [List.length_cons]
        omega
      rw [if_neg hlen]
      by_cases h0 : c0 = '0'
      · rw [if_pos h0]
        subst h0
        unfold baseOf
        by_cases hb : c1 = 'b' ∨ c1 = 'B'
        · rw [if_pos hb]
          simp [hb, hr]
        · rw [if_neg hb]
          by_cases ho : c1 = 'o' ∨ c1 = 'O'
          · rw [if_pos ho]
            simp [hb, ho, hr]
          · rw [if_neg ho]
            by_cases hx : c1 = 'x' ∨ c1 = 'X'
            · rw [if_pos hx]
              simp [hb, ho, hx, hr]
            · rw [if_neg hx]
              simp [hb, ho, hx]
      · rw [if_neg h0]
        simp [h0]

/-- C6, amended: the highlighter classifies a word as a numeric literal iff
it is either `0` followed by a base prefix in either case (`b`/`B`, `o`/`O`,
`x`/`X`) and one or more digits valid in that base, or a decimal literal
per the claim's grammar: starts with a digit, contains only digits, at most
one `.` (not after the exponent marker, only directly after a digit), at
most one exponent marker `e`/`E` (only directly after a digit), underscores
only directly after a digit, and ends on a digit. -/
theorem c6_amended (w : List Char) :
    isValidNumber w = specNumberGrammarAmended w := by
  rw [Bool.eq_iff_iff]
  unfold isValidNumber specNumberGrammarAmended
  match w with
  | [] => simp [isNumericLiteral, specBasePrefixedAmended, specDecimal]
  | c :: rest =>
    rw [if_neg (by simp)]
    by_cases hnl : isNumericLiteral (c :: rest) = true
    · rw [if_pos hnl]
      rw [isNumericLiteral_eq_amended] at hnl
      simp [hnl]
    · rw [if_neg hnl]
      rw [isNumericLiteral_eq_amended, Bool.not_eq_true] at hnl
      simp only [Bool.or_eq_true, hnl, Bool.false_eq_true, false_or]
      by_cases hdg : c.isDigit = true
      · rw [if_pos hdg, validRest_iff, specDecimal_iff]
        simp [hdg]
      · rw [if_neg hdg]
        rw [specDecimal_iff]
        simp [hdg]
